import Mathlib

/-!
Verification of the LAN-Drive repository's core file-operation engine and
upload coordinator against its natural-language specification.

The definitions below are shallow embeddings of the TypeScript sources:
  * `src/vite.plugin.fs.ts`   — the HTTP backend (path sandboxing, batch
    delete/copy/move, rename, decompress, categorize handlers);
  * `src/unnamed/part_001`    — the in-memory mock file service
    (`deleteEntries`, `copyEntries` with `getUniqueName`, `moveEntries`,
    duplicate-checking `uploadFile`);
  * `src/services/fileService.ts` — the earlier mock file service whose
    `uploadFile` appends without a duplicate check;
  * `src/contexts/UploadProgressContext.tsx` — the upload lifecycle
    coordinator (`updateUploadProgress`, `setUploadStatus`, `cancelUpload`).

JavaScript strings are Lean `String`s, JS numbers appearing as byte sizes,
timestamps and ids are `Nat` (timestamps are threaded as an explicit `now`
argument where the source calls `new Date()`), and upload percentages are
`Int` because the source performs no range check.  Node's `path` functions
(posix join/normalize, basename, dirname) are embedded as executable
functions on segment lists.  Unbounded `while` loops and recursion over the
directory tree are embedded with explicit fuel chosen large enough that the
fuel-exhaustion branch is unreachable on the stores appearing in theorems.
-/

set_option maxRecDepth 4000

/-- Splits a character list at every occurrence of `c`.  Mirrors
JavaScript's `String.prototype.split` restricted to a one-character
separator: the result is always non-empty, and empty segments are kept. -/
def splitOnChar (c : Char) : List Char → List (List Char)
  | [] => [[]]
  | x :: xs =>
    let r := splitOnChar c xs
    if x = c then [] :: r
    else
      match r with
      | [] => [[x]]
      | h :: t => (x :: h) :: t

/-- The prefix of `l` strictly before the last occurrence of `c`, or `none`
when `c` does not occur.  Used to embed `lastIndexOf`-based slicing. -/
def beforeLast (c : Char) : List Char → Option (List Char)
  | [] => none
  | x :: xs =>
    match beforeLast c xs with
    | some r => some (x :: r)
    | none => if x = c then some [] else none

/-- The suffix of `l` strictly after the last occurrence of `c`, or all of
`l` when `c` does not occur. -/
def afterLast (c : Char) : List Char → List Char
  | [] => []
  | x :: xs =>
    match beforeLast c xs with
    | some _ => afterLast c xs
    | none => if x = c then afterLast c xs else x :: afterLast c xs

/-- Models JavaScript's `String.prototype.startsWith` / the string-prefix
test performed by `resolvedPath.startsWith(FILES_ROOT)` in
`src/vite.plugin.fs.ts`. -/
def strStartsWith (s pre : String) : Bool :=
  pre.data.isPrefixOf s.data

/-- Models `String.prototype.endsWith`. -/
def strEndsWith (s suf : String) : Bool :=
  suf.data.isSuffixOf s.data

/-- Node `path.basename` (posix): the segment after the last `/`.  The
repository only applies it to normalized, slash-separated paths without a
trailing slash, which is the case embedded here. -/
def basename (p : String) : String :=
  String.mk (afterLast '/' p.data)

/-- Node `path.posix.dirname` for the normalized inputs used by the
repository: the prefix before the last `/` (`/` when that prefix is empty,
`.` when there is no slash at all). -/
def posixDirname (p : String) : String :=
  match beforeLast '/' p.data with
  | none => "."
  | some [] => "/"
  | some pre => String.mk pre

/-- Node `path.join(a, b)` followed by normalization, for an absolute (or
`/`-rooted) first argument, as used on the posix server platform: the two
parts are joined with `/`, empty and `.` segments are dropped, and `..`
pops the previous segment (falling off the root is a no-op because the
first argument is rooted). -/
def pathJoinAbs (a b : String) : String :=
  let segs := (splitOnChar '/' (a ++ "/" ++ b).data).map (fun l => String.mk l)
  let norm := segs.foldl
    (fun acc seg =>
      if seg = "" ∨ seg = "." then acc
      else if seg = ".." then acc.dropLast
      else acc ++ [seg]) []
  "/" ++ String.intercalate "/" norm

/-- The error message thrown by `getSafePath` in `src/vite.plugin.fs.ts`. -/
def accessDeniedMsg : String :=
  "Access denied: Path is outside of the allowed directory."

/-- `getSafePath` from `src/vite.plugin.fs.ts` (lines 13–19): joins the
user path onto the sandbox root and rejects the result unless the root is
a string prefix of the resolved path.  The sandbox root `FILES_ROOT` is a
runtime constant (`path.resolve(process.cwd(), 'files')`); it is passed
here as the `root` parameter. -/
def getSafePath (root userPath : String) : Except String String :=
  let resolvedPath := pathJoinAbs root userPath
  if strStartsWith resolvedPath root then Except.ok resolvedPath
  else Except.error accessDeniedMsg

/-- Modelled from the spec: "every path it does return lies inside the
sandbox root" — directory containment, i.e. the resolved path is the root
itself or has `root ++ "/"` as a prefix.  (The code's own check is the raw
string-prefix test in `getSafePath`; this definition exists to compare the
two.) -/
def insideSandboxDir (root p : String) : Bool :=
  p == root || strStartsWith p (root ++ "/")

/-- **C1, counterexample.**  The claim states that every `userPath`
containing `../` that resolves outside the sandbox root is rejected with
ACCESS_DENIED, and hence that every returned path lies inside the sandbox
root.  With sandbox root `/app/files`, the user path `../filesEvil`
resolves to `/app/filesEvil` — a sibling of the root, outside it — yet
`getSafePath` accepts it, because `/app/filesEvil` has the root as a raw
string prefix. -/
theorem getSafePath_escape_counterexample :
    strStartsWith "../filesEvil" "../" = true
    ∧ pathJoinAbs "/app/files" "../filesEvil" = "/app/filesEvil"
    ∧ insideSandboxDir "/app/files" "/app/filesEvil" = false
    ∧ getSafePath "/app/files" "../filesEvil" = Except.ok "/app/filesEvil" := by
  refine ⟨by decide, by decide, by decide, by rfl⟩

/-- **C1, amended.**  `getSafePath` fails with ACCESS_DENIED exactly when
the computed absolute path does not have the sandbox root as a string
prefix, and every path it returns is the computed absolute path, which has
the root as a string prefix — a weaker guarantee than directory
containment, as the counterexample shows. -/
theorem getSafePath_string_prefix_dichotomy (root u : String) :
    (getSafePath root u = Except.ok (pathJoinAbs root u)
      ∧ strStartsWith (pathJoinAbs root u) root = true)
    ∨ (getSafePath root u = Except.error accessDeniedMsg
      ∧ strStartsWith (pathJoinAbs root u) root = false) := by
  by_cases h : strStartsWith (pathJoinAbs root u) root = true
  · exact Or.inl ⟨by simp [getSafePath, h], h⟩
  · refine Or.inr ⟨?_, by simpa using h⟩
    simp only [getSafePath]
    rw [if_neg (by simpa using h)]

/-- Entry types, from `src/types` (`FileType.FILE` / `FileType.FOLDER`). -/
inductive FileType where
  | FILE
  | FOLDER
deriving DecidableEq, Repr

/-- A directory-listing entry, from the `FileEntry` interface in
`src/types`: name, kind, size in bytes, last-modified timestamp and the
posix-style sandbox-relative path that identifies the entry. -/
structure FileEntry where
  name : String
  type : FileType
  size : Nat
  lastModified : Nat
  path : String
deriving DecidableEq, Repr

/-- The in-memory mock file system of `src/unnamed/part_001` /
`src/services/fileService.ts`: a JavaScript object mapping each folder
path to the list of its entries, embedded as an association list with
unique keys. -/
def Store : Type := List (String × List FileEntry)

/-- JS property read `mockFileSystem[p]`. -/
def storeGet : Store → String → Option (List FileEntry)
  | [], _ => none
  | (k, v) :: rest, p => if k == p then some v else storeGet rest p

/-- JS property write `mockFileSystem[p] = v` (replaces the binding when
the key is present, otherwise appends it). -/
def storeSet : Store → String → List FileEntry → Store
  | [], p, v => [(p, v)]
  | (k, w) :: rest, p, v =>
    if k == p then (p, v) :: rest else (k, w) :: storeSet rest p v

/-- JS `delete mockFileSystem[p]`. -/
def storeDel : Store → String → Store
  | [], _ => []
  | (k, w) :: rest, p => if k == p then rest else (k, w) :: storeDel rest p

/-- `getParentPath` from `src/unnamed/part_001` (lines 30–33):
`path.substring(0, path.lastIndexOf('/')) || '/'`. -/
def getParentPath (path : String) : String :=
  if path = "/" then "/"
  else
    match beforeLast '/' path.data with
    | none => "/"
    | some [] => "/"
    | some pre => String.mk pre

/-- `findEntry` from `src/unnamed/part_001` (lines 35–40): looks the entry
up in its parent's listing by exact path. -/
def findEntry (s : Store) (path : String) : Option FileEntry :=
  match storeGet s (getParentPath path) with
  | none => none
  | some parent => parent.find? (fun entry => entry.path == path)

/-- The top-level reduction applied before every batch delete/copy/move,
written identically in `handleDelete`/`handleCopy`/`handleMove` of
`src/vite.plugin.fs.ts` and in `deleteEntries`/`copyEntries` of
`src/unnamed/part_001`:
`paths.filter(p => !paths.some(other => p.startsWith(other + '/') && p !== other))`. -/
def reduceToTopLevel (paths : List String) : List String :=
  paths.filter (fun p =>
    !(paths.any (fun other => strStartsWith p (other ++ "/") && p != other)))

/-- Removes the first element satisfying `p`, as done by
`findIndex` + `splice(index, 1)` in `deleteEntries`. -/
def removeFirst (p : α → Bool) : List α → List α
  | [] => []
  | x :: xs => if p x then xs else x :: removeFirst p xs

/-- The recursive folder deletion inside `deleteEntries`
(`src/unnamed/part_001` lines 152–160): recursively deletes the store
bindings of all descendant folders, then the folder's own binding.  The
`while`-free JS recursion over the (finite, acyclic) tree is embedded with
explicit fuel; the fuel-exhaustion branch returns the store unchanged and
is unreachable for the fuel used by `deleteEntries`. -/
def deleteFolderRecursively : Nat → Store → String → Store
  | 0, s, _ => s
  | fuel + 1, s, folderPath =>
    let entries := (storeGet s folderPath).getD []
    let s1 := entries.foldl
      (fun acc e =>
        if e.type == FileType.FOLDER then deleteFolderRecursively fuel acc e.path
        else acc) s
    storeDel s1 folderPath

/-- One iteration of the `for (const path of topLevelPaths)` loop of
`deleteEntries`: skip when the entry is missing, recursively delete folder
bindings, then splice the entry out of its parent's listing. -/
def deleteOne (s : Store) (path : String) : Store :=
  match findEntry s path with
  | none => s
  | some entry =>
    let s1 :=
      if entry.type == FileType.FOLDER then
        deleteFolderRecursively (s.length + 1) s path
      else s
    match storeGet s1 (getParentPath path) with
    | none => s1
    | some parentDir =>
      storeSet s1 (getParentPath path) (removeFirst (fun e => e.path == path) parentDir)

/-- `deleteEntries` from `src/unnamed/part_001` (lines 145–180): top-level
reduction followed by per-path deletion. -/
def deleteEntries (paths : List String) (s : Store) : Store :=
  (reduceToTopLevel paths).foldl deleteOne s

/-- **C2.**  `reduceToTopLevel` returns exactly those paths `p` of the
input for which no other path `q` in the input satisfies
`p.startsWith(q + "/")`; consequently for a set containing `/docs` and its
descendant `/docs/a.txt` only the ancestor is retained, and
`deleteEntries` acts on the same path set for `["/docs", "/docs/a.txt"]`
as for `["/docs"]`. -/
theorem reduceToTopLevel_spec :
    (∀ (paths : List String) (p : String),
      p ∈ reduceToTopLevel paths ↔
        p ∈ paths ∧ ∀ q ∈ paths, q ≠ p → strStartsWith p (q ++ "/") = false)
    ∧ reduceToTopLevel ["/docs", "/docs/a.txt"] = ["/docs"]
    ∧ ∀ s : Store, deleteEntries ["/docs", "/docs/a.txt"] s = deleteEntries ["/docs"] s := by
  refine ⟨?_, by decide, ?_⟩
  · intro paths p
    simp only [reduceToTopLevel, List.mem_filter, Bool.not_eq_true',
      List.any_eq_false, Bool.and_eq_true, bne_iff_ne, not_and]
    constructor
    · rintro ⟨hp, h⟩
      refine ⟨hp, fun q hq hne => ?_⟩
      have := h q hq
      by_cases hs : strStartsWith p (q ++ "/") = true
      · exact absurd (Ne.symm hne) (not_not.mp (fun hnn => hnn (this hs)))
      · simpa using hs
    · rintro ⟨hp, h⟩
      refine ⟨hp, fun q hq hs => ?_⟩
      intro hne
      have := h q hq (Ne.symm hne)
      simp [hs] at this
  · intro s
    have h1 : reduceToTopLevel ["/docs", "/docs/a.txt"] = ["/docs"] := by decide
    have h2 : reduceToTopLevel ["/docs"] = ["/docs"] := by decide
    simp [deleteEntries, h1, h2]

/-- The child-path construction used throughout the mock service:
`${destPath === '/' ? '' : destPath}/${name}`. -/
def mockChildPath (destPath name : String) : String :=
  (if destPath = "/" then "" else destPath) ++ "/" ++ name

/-- `getUniqueName`'s extension split (`src/unnamed/part_001` lines
193–194): when the name contains a `.`, the extension is the substring
from the last `.` (dot included) and the stem is everything before it;
otherwise the extension is empty. -/
def splitExt (name : String) : String × String :=
  match beforeLast '.' name.data with
  | none => (name, "")
  | some stem => (String.mk stem, String.mk ('.' :: afterLast '.' name.data))

/-- The `while (destEntries.some(e => e.name === newName))` probe loop of
`getUniqueName`, with fuel.  Each iteration checks the current candidate
and, when it is taken, moves to `stem (counter)ext` with the counter
incremented.  The fuel `destEntries.length + 1` used below suffices: the
probed candidates are pairwise distinct, so one of the first
`destEntries.length + 1` candidates must be free. -/
def getUniqueNameAux (destEntries : List FileEntry) (stem ext : String) :
    Nat → Nat → String → String
  | 0, _, newName => newName
  | fuel + 1, counter, newName =>
    if destEntries.any (fun e => e.name == newName) then
      getUniqueNameAux destEntries stem ext fuel (counter + 1)
        (stem ++ " (" ++ toString counter ++ ")" ++ ext)
    else newName

/-- `getUniqueName` from `copyEntries` (`src/unnamed/part_001` lines
188–199): probes `name`, `stem (1)ext`, `stem (2)ext`, … against the
destination listing until a free name is found. -/
def getUniqueName (destEntries : List FileEntry) (originalName : String) : String :=
  let (stem, ext) := splitExt originalName
  getUniqueNameAux destEntries stem ext (destEntries.length + 1) 1 originalName

/-- `copyRecursively` from `copyEntries` (`src/unnamed/part_001` lines
201–222): look up the source entry, compute a collision-free name at the
destination, push the copied entry, and for folders create the new
binding and recurse over the children.  The recursion over the directory
tree carries explicit fuel (the fuel-exhaustion branch is unreachable for
the acyclic stores used in theorems); the children list is the snapshot
read after the push, as in the source. -/
def copyRecursively (now : Nat) : Nat → Store → String → String → Store
  | 0, s, _, _ => s
  | fuel + 1, s, sourcePath, destPath =>
    match findEntry s sourcePath with
    | none => s
    | some sourceEntry =>
      let destEntries := (storeGet s destPath).getD []
      let newName := getUniqueName destEntries sourceEntry.name
      let newPath := mockChildPath destPath newName
      let newEntry : FileEntry :=
        { sourceEntry with name := newName, path := newPath, lastModified := now }
      let s1 := storeSet s destPath (destEntries ++ [newEntry])
      if sourceEntry.type == FileType.FOLDER then
        let s2 := storeSet s1 newPath []
        let children := (storeGet s2 sourcePath).getD []
        children.foldl (fun acc child => copyRecursively now fuel acc child.path newPath) s2
      else s1

/-- `copyEntries` from `src/unnamed/part_001` (lines 182–229): top-level
reduction, then `copyRecursively` for each retained source path. -/
def copyEntries (now : Nat) (paths : List String) (destinationPath : String)
    (s : Store) : Store :=
  (reduceToTopLevel paths).foldl
    (fun acc p => copyRecursively now (acc.length + 1) acc p destinationPath) s

/-- `moveEntries` from `src/unnamed/part_001` (lines 231–237): a copy of
the selection to the destination followed by deletion of the originals. -/
def moveEntries (now : Nat) (paths : List String) (destinationPath : String)
    (s : Store) : Store :=
  deleteEntries paths (copyEntries now paths destinationPath s)

/-- The destination path computed per source by the server's `handleCopy`
and `handleMove` (`src/vite.plugin.fs.ts` lines 157–161 and 172–176):
`getSafePath(path.join(destinationPath, path.basename(p)))` — the base
name is reused verbatim, with no collision probing. -/
def serverEntryDestination (root destinationPath p : String) : Except String String :=
  getSafePath root (pathJoinAbs destinationPath (basename p))

/-- A small store used for concrete evaluations: the root holds folders
`/docs` and `/other`, and both folders hold a file named `a.txt`. -/
def demoStore : Store :=
  [ ("/", [⟨"docs", FileType.FOLDER, 0, 1, "/docs"⟩,
           ⟨"other", FileType.FOLDER, 0, 2, "/other"⟩]),
    ("/docs", [⟨"a.txt", FileType.FILE, 3, 3, "/docs/a.txt"⟩]),
    ("/other", [⟨"a.txt", FileType.FILE, 5, 4, "/other/a.txt"⟩]) ]

/-- **C3 (code bug), evaluation.**  The mock `copyEntries` implements the
claimed collision-free naming: copying `/other/a.txt` into `/docs`, which
already holds `a.txt`, creates `a (1).txt` and leaves the existing entry
unchanged, and copying again creates `a (2).txt`.  The server's
`handleCopy`, however, computes the destination
`getSafePath(path.join(destinationPath, path.basename(p)))` with no
probing: the computed target is exactly the path of the existing entry,
which `fs.cp` then overwrites. -/
theorem copy_collision_naming_eval :
    storeGet (copyEntries 10 ["/other/a.txt"] "/docs" demoStore) "/docs"
      = some [⟨"a.txt", FileType.FILE, 3, 3, "/docs/a.txt"⟩,
              ⟨"a (1).txt", FileType.FILE, 5, 10, "/docs/a (1).txt"⟩]
    ∧ storeGet (copyEntries 11 ["/other/a.txt"] "/docs"
          (copyEntries 10 ["/other/a.txt"] "/docs" demoStore)) "/docs"
      = some [⟨"a.txt", FileType.FILE, 3, 3, "/docs/a.txt"⟩,
              ⟨"a (1).txt", FileType.FILE, 5, 10, "/docs/a (1).txt"⟩,
              ⟨"a (2).txt", FileType.FILE, 5, 11, "/docs/a (2).txt"⟩]
    ∧ serverEntryDestination "/app/files" "/docs" "/other/a.txt"
      = Except.ok "/app/files/docs/a.txt" := by
  refine ⟨by decide, by decide, by rfl⟩

/-- **C4, counterexample.**  The claim states that a move whose
destination already holds an entry of the same name fails with CONFLICT
and never silently renames.  Moving `/other/a.txt` into `/docs`, which
already holds `a.txt`, the mock `moveEntries` (copy then delete) succeeds
and silently stores the moved file under the collision-free name
`a (1).txt`. -/
theorem move_conflict_counterexample :
    storeGet (moveEntries 7 ["/other/a.txt"] "/docs" demoStore) "/docs"
      = some [⟨"a.txt", FileType.FILE, 3, 3, "/docs/a.txt"⟩,
              ⟨"a (1).txt", FileType.FILE, 5, 7, "/docs/a (1).txt"⟩]
    ∧ storeGet (moveEntries 7 ["/other/a.txt"] "/docs" demoStore) "/other"
      = some [] := by
  refine ⟨by decide, by decide⟩

theorem storeGet_storeSet_self (s : Store) (k : String) (v : List FileEntry) :
    storeGet (storeSet s k v) k = some v := by
  induction s with
  | nil => simp [storeSet, storeGet]
  | cons kv rest ih =>
    obtain ⟨k', w⟩ := kv
    by_cases h : k' = k
    · simp [storeSet, storeGet, h]
    · simp only [storeSet, storeGet]
      rw [if_neg (by simpa using h), storeGet]
      rw [if_neg (by simpa using h)]
      exact ih

theorem storeGet_storeSet_ne (s : Store) (k : String) (v : List FileEntry)
    (k' : String) (h : k' ≠ k) :
    storeGet (storeSet s k v) k' = storeGet s k' := by
  induction s with
  | nil =>
    simp only [storeSet, storeGet]
    rw [if_neg (by simpa using (Ne.symm h))]
  | cons kv rest ih =>
    obtain ⟨k₁, w⟩ := kv
    by_cases h1 : k₁ = k
    · simp only [storeSet]
      rw [if_pos (by simpa using h1)]
      simp only [storeGet]
      rw [if_neg (by simpa using (Ne.symm h)), if_neg (by simp [h1]; exact (Ne.symm (h1 ▸ h)))]
    · simp only [storeSet]
      rw [if_neg (by simpa using h1)]
      simp only [storeGet]
      by_cases h2 : k₁ = k'
      · rw [if_pos (by simpa using h2), if_pos (by simpa using h2)]
      · rw [if_neg (by simpa using h2), if_neg (by simpa using h2)]
        exact ih

theorem find?_append_some {α : Type} (l₁ l₂ : List α) (p : α → Bool) (a : α)
    (h : l₁.find? p = some a) : (l₁ ++ l₂).find? p = some a := by
  induction l₁ with
  | nil => simp [List.find?] at h
  | cons x xs ih =>
    cases hx : p x with
    | true =>
      rw [List.find?_cons_of_pos _ hx] at h
      simpa [List.find?_cons_of_pos _ hx] using h
    | false =>
      rw [List.find?_cons_of_neg _ (by simp [hx])] at h
      rw [List.cons_append, List.find?_cons_of_neg _ (by simp [hx])]
      exact ih h

theorem removeFirst_append_left {α : Type} (p : α → Bool) (l₁ l₂ : List α)
    (h : (l₁.find? p).isSome) :
    removeFirst p (l₁ ++ l₂) = removeFirst p l₁ ++ l₂ := by
  induction l₁ with
  | nil => simp [List.find?] at h
  | cons x xs ih =>
    cases hx : p x with
    | true => simp [removeFirst, hx]
    | false =>
      rw [List.find?_cons_of_neg _ (by simp [hx])] at h
      simp [removeFirst, hx, ih h]

theorem splitExt_concat (n : String) : (splitExt n).1 ++ (splitExt n).2 = n := by
  unfold splitExt
  cases h : beforeLast '.' n.data with
  | none =>
    apply String.ext
    show n.data ++ ([] : List Char) = n.data
    simp
  | some stem =>
    apply String.ext
    show stem ++ '.' :: afterLast '.' n.data = n.data
    have : ∀ (l : List Char) (pre : List Char), beforeLast '.' l = some pre →
        l = pre ++ '.' :: afterLast '.' l := by
      intro l
      induction l with
      | nil => intro pre hpre; simp [beforeLast] at hpre
      | cons x xs ih =>
        intro pre hpre
        by_cases hx : beforeLast '.' xs = none
        · by_cases hxc : x = '.'
          · rw [beforeLast, hx, if_pos hxc] at hpre
            obtain rfl : pre = [] := by simpa using hpre.symm
            have hafter : afterLast '.' xs = xs := by
              clear hpre ih
              induction xs with
              | nil => simp [afterLast]
              | cons y ys ihy =>
                rw [beforeLast] at hx
                cases hys : beforeLast '.' ys with
                | some r => rw [hys] at hx; simp at hx
                | none =>
                  rw [hys] at hx
                  by_cases hy : y = '.'
                  · rw [if_pos hy] at hx; simp at hx
                  · rw [afterLast, hys, if_neg hy, ihy hys]
            rw [afterLast, hx, if_pos hxc, hafter, hxc]
            simp
          · rw [beforeLast, hx, if_neg hxc] at hpre
            simp at hpre
        · obtain ⟨r, hr⟩ := Option.ne_none_iff_exists'.mp hx
          rw [beforeLast, hr] at hpre
          obtain rfl : pre = x :: r := by simpa using hpre.symm
          rw [afterLast, hr]
          simpa using ih r hr
    exact (this n.data stem h).symm

theorem getUniqueNameAux_form (destEntries : List FileEntry) (stem ext : String) :
    ∀ (fuel c k : Nat),
      getUniqueNameAux destEntries stem ext fuel c
          (stem ++ " (" ++ toString k ++ ")" ++ ext) =
        stem ++ " (" ++ toString k ++ ")" ++ ext
      ∨ ∃ k' : Nat, getUniqueNameAux destEntries stem ext fuel c
          (stem ++ " (" ++ toString k ++ ")" ++ ext) =
        stem ++ " (" ++ toString k' ++ ")" ++ ext := by
  intro fuel
  induction fuel with
  | zero => intro c k; left; rfl
  | succ f ih =>
    intro c k
    rw [getUniqueNameAux]
    by_cases h : destEntries.any
        (fun e => e.name == stem ++ " (" ++ toString k ++ ")" ++ ext) = true
    · rw [if_pos h]
      rcases ih (c + 1) c with h' | ⟨k', h'⟩
      · exact Or.inr ⟨c, h'⟩
      · exact Or.inr ⟨k', h'⟩
    · rw [if_neg h]
      exact Or.inl rfl

/-- When the original name is taken at the destination, `getUniqueName`
returns one of the probed `stem (counter)ext` candidates, and every such
candidate is strictly longer than the original name, so the result is a
genuinely different name. -/
theorem getUniqueName_ne_of_taken (destEntries : List FileEntry) (n : String)
    (h : destEntries.any (fun e => e.name == n) = true) :
    getUniqueName destEntries n ≠ n := by
  have hsplit : (splitExt n).1 ++ (splitExt n).2 = n := splitExt_concat n
  obtain ⟨stem, ext, hse⟩ : ∃ stem ext, splitExt n = (stem, ext) :=
    ⟨(splitExt n).1, (splitExt n).2, rfl⟩
  rw [hse] at hsplit
  have hlen : n.length = stem.length + ext.length := by
    rw [← hsplit, String.length_append]
  have hform : ∃ k' : Nat, getUniqueName destEntries n =
      stem ++ " (" ++ toString k' ++ ")" ++ ext := by
    unfold getUniqueName
    rw [hse]
    simp only
    rw [getUniqueNameAux, if_pos h]
    rcases getUniqueNameAux_form destEntries stem ext destEntries.length 2 1 with h' | ⟨k', h'⟩
    · exact ⟨1, h'⟩
    · exact ⟨k', h'⟩
  obtain ⟨k', hk⟩ := hform
  intro hcontra
  rw [hcontra] at hk
  have h2 : n.length = (stem ++ " (" ++ toString k' ++ ")" ++ ext).length := by rw [← hk]
  rw [String.length_append, String.length_append, String.length_append,
    String.length_append] at h2
  have e1 : (" (" : String).length = 2 := rfl
  have e2 : ((")") : String).length = 1 := rfl
  rw [e1, e2] at h2
  omega

/-- **C4, amended.**  When a single file is moved to a destination that
already holds an entry of the same name, the mock `moveEntries` does not
fail with CONFLICT and does not leave the name unchanged: it succeeds and
silently stores the moved file at the destination under the collision-free
name computed by copy's `getUniqueName` (the server's `handleMove`
likewise performs no conflict check: it renames onto
`path.join(destinationPath, basename)`, overwriting a same-named file). -/
theorem moveEntries_silently_renames (now : Nat) (s : Store) (p dest : String)
    (e : FileEntry) (D : List FileEntry)
    (hfind : findEntry s p = some e)
    (hfile : e.type = FileType.FILE)
    (hD : storeGet s dest = some D)
    (htaken : D.any (fun x => x.name == e.name) = true) :
    getUniqueName D e.name ≠ e.name
    ∧ ∃ ps, storeGet (moveEntries now [p] dest s) dest = some ps
      ∧ ({ e with name := getUniqueName D e.name,
                  path := mockChildPath dest (getUniqueName D e.name),
                  lastModified := now } : FileEntry) ∈ ps := by
  refine ⟨getUniqueName_ne_of_taken D e.name htaken, ?_⟩
  have hred : reduceToTopLevel [p] = [p] := by
    simp [reduceToTopLevel]
  set newE : FileEntry :=
    { e with name := getUniqueName D e.name,
             path := mockChildPath dest (getUniqueName D e.name),
             lastModified := now } with hnewE
  have hcopy : copyEntries now [p] dest s = storeSet s dest (D ++ [newE]) := by
    rw [copyEntries, hred]
    show copyRecursively now (s.length + 1) s p dest = storeSet s dest (D ++ [newE])
    rw [copyRecursively, hfind]
    simp only [hD, Option.getD_some]
    rw [if_neg (by rw [hfile]; decide)]
  have hmove : moveEntries now [p] dest s = deleteEntries [p] (storeSet s dest (D ++ [newE])) := by
    rw [moveEntries, hcopy]
  rw [hmove, deleteEntries, hred]
  show ∃ ps, storeGet (deleteOne (storeSet s dest (D ++ [newE])) p) dest = some ps ∧ newE ∈ ps
  by_cases hpd : getParentPath p = dest
  · -- the source file's parent is the destination folder itself
    have hDfind : D.find? (fun en => en.path == p) = some e := by
      rw [findEntry, hpd, hD] at hfind
      exact hfind
    have hfind1 : findEntry (storeSet s dest (D ++ [newE])) p = some e := by
      rw [findEntry, hpd, storeGet_storeSet_self]
      exact find?_append_some D [newE] _ e hDfind
    have htype : (e.type == FileType.FOLDER) = false := by rw [hfile]; rfl
    simp only [deleteOne, hfind1, htype, Bool.false_eq_true, if_false, hpd,
      storeGet_storeSet_self]
    rw [removeFirst_append_left _ D [newE] (by rw [hDfind]; rfl)]
    exact ⟨removeFirst (fun e => e.path == p) D ++ [newE], rfl, by simp⟩
  · -- the source file's parent is a different folder
    obtain ⟨P, hP, hPfind⟩ : ∃ P, storeGet s (getParentPath p) = some P
        ∧ P.find? (fun en => en.path == p) = some e := by
      rw [findEntry] at hfind
      cases hsp : storeGet s (getParentPath p) with
      | none => rw [hsp] at hfind; simp at hfind
      | some P => rw [hsp] at hfind; exact ⟨P, rfl, hfind⟩
    have hget1 : storeGet (storeSet s dest (D ++ [newE])) (getParentPath p)
        = some P := by
      rw [storeGet_storeSet_ne _ _ _ _ hpd]
      exact hP
    have hfind1 : findEntry (storeSet s dest (D ++ [newE])) p = some e := by
      rw [findEntry, hget1]
      exact hPfind
    have htype : (e.type == FileType.FOLDER) = false := by rw [hfile]; rfl
    simp only [deleteOne, hfind1, htype, Bool.false_eq_true, if_false, hget1]
    refine ⟨D ++ [newE], ?_, by simp⟩
    rw [storeGet_storeSet_ne _ _ _ _ (Ne.symm hpd), storeGet_storeSet_self]

/-- **C4, amended — witness.**  Instantiates the amended move theorem on
the demo store: moving `/other/a.txt` into `/docs`, which holds `a.txt`,
yields the silently renamed entry. -/
theorem moveEntries_silently_renames_witness :
    getUniqueName [⟨"a.txt", FileType.FILE, 3, 3, "/docs/a.txt"⟩] "a.txt" ≠ "a.txt"
    ∧ ∃ ps, storeGet (moveEntries 5 ["/other/a.txt"] "/docs" demoStore) "/docs" = some ps
      ∧ ({ name := getUniqueName [⟨"a.txt", FileType.FILE, 3, 3, "/docs/a.txt"⟩] "a.txt",
           type := FileType.FILE, size := 5,
           lastModified := 5,
           path := mockChildPath "/docs"
             (getUniqueName [⟨"a.txt", FileType.FILE, 3, 3, "/docs/a.txt"⟩] "a.txt") } : FileEntry) ∈ ps :=
  moveEntries_silently_renames 5 demoStore "/other/a.txt" "/docs"
    ⟨"a.txt", FileType.FILE, 5, 4, "/other/a.txt"⟩
    [⟨"a.txt", FileType.FILE, 3, 3, "/docs/a.txt"⟩]
    (by decide) (by decide) (by decide) (by decide)

/-- The filesystem side effects issued by the decompress handler. -/
inductive FsEffect where
  | mkdir (p : String)
  | writeFile (p : String)
  | extract (src : String) (dest : String)
deriving DecidableEq, Repr

/-- The outcome of a decompress request: the HTTP status code sent and the
filesystem effects performed. -/
structure DecompressOutcome where
  status : Nat
  effects : List FsEffect
deriving DecidableEq, Repr

/-- Node `path.basename(p, suffix)`: the base name with `suffix` removed
when the base name ends with it and is not the suffix itself. -/
def basenameDrop (p suffix : String) : String :=
  let b := basename p
  if b ≠ suffix ∧ strEndsWith b suffix then
    String.mk (b.data.take (b.data.length - suffix.data.length))
  else b

/-- The destination-probing `while (true)` loop of `handleDecompress`
(`src/vite.plugin.fs.ts` lines 207–215): while `fs.access` finds the
candidate, move to `folderName (i)` with `i` incremented.  The set of
existing absolute paths is the `existing` parameter; fuel
`existing.length + 1` makes the fuel-exhaustion branch unreachable. -/
def probeDestLoop (root parentDir folderName : String) (existing : List String) :
    Nat → Nat → String → Except String String
  | 0, _, cur => Except.ok cur
  | fuel + 1, i, cur =>
    if existing.contains cur then
      match getSafePath root (pathJoinAbs parentDir (folderName ++ " (" ++ toString i ++ ")")) with
      | Except.error msg => Except.error msg
      | Except.ok nxt => probeDestLoop root parentDir folderName existing fuel (i + 1) nxt
    else Except.ok cur

/-- `handleDecompress` from `src/vite.plugin.fs.ts` (lines 197–246),
embedded as a function of the runtime availability of the `unzipper`
library (`require('unzipper')` succeeding), the set of existing absolute
paths, and the request's zip path.  Faithful to the source: when the
library is unavailable the handler creates the destination directory,
writes `unzipped-placeholder.txt` into it, and responds 204; when it is
available it extracts into the destination and responds 204 on success
(the stream-error cleanup path is a runtime event outside this embedding).
An empty `zipPath` is the `!zipPath` 400 guard; `Except.error` is the
ACCESS_DENIED throw surfaced as a 500 by the middleware. -/
def handleDecompress (root : String) (existing : List String)
    (unzipperAvailable : Bool) (zipPath : String) : Except String DecompressOutcome :=
  if zipPath = "" then Except.ok ⟨400, []⟩
  else
    match getSafePath root zipPath with
    | Except.error msg => Except.error msg
    | Except.ok sourcePath =>
      let folderName := basenameDrop zipPath ".zip"
      let parentDir := posixDirname zipPath
      match getSafePath root (pathJoinAbs parentDir folderName) with
      | Except.error msg => Except.error msg
      | Except.ok dest0 =>
        match probeDestLoop root parentDir folderName existing
            (existing.length + 1) 1 dest0 with
        | Except.error msg => Except.error msg
        | Except.ok destPath =>
          if unzipperAvailable then
            Except.ok ⟨204, [FsEffect.extract sourcePath destPath]⟩
          else
            Except.ok ⟨204,
              [FsEffect.mkdir destPath,
               FsEffect.writeFile (pathJoinAbs destPath "unzipped-placeholder.txt")]⟩

/-- **C5 (code bug), evaluation.**  With the extraction capability absent
(`require('unzipper')` failing), decompressing `/a.zip` does not fail with
UNSUPPORTED (501): the handler creates the destination folder `/a`, writes
a placeholder file into it, and responds 204 — the placeholder stopgap the
spec explicitly says must not be preserved. -/
theorem decompress_placeholder_eval :
    handleDecompress "/app/files" [] false "/a.zip"
      = Except.ok ⟨204, [FsEffect.mkdir "/app/files/a",
                         FsEffect.writeFile "/app/files/a/unzipped-placeholder.txt"]⟩
    ∧ (204 : Nat) ≠ 501 := by
  exact ⟨by rfl, by decide⟩

/-- The error message of the `!entryPath || !newName` guard in
`handleRename` (`src/vite.plugin.fs.ts` line 184), surfaced as HTTP 400. -/
def invalidBodyMsg : String := "Invalid request body"

/-- `handleRename` from `src/vite.plugin.fs.ts` (lines 182–195), up to the
`fs.rename` call: reject empty `entryPath`/`newName` (JS falsiness of the
empty string), then compute the source and destination absolute paths —
`getSafePath(entryPath)` and
`getSafePath(path.posix.join(path.posix.dirname(entryPath), newName))`.
No conflict or same-name check appears anywhere. -/
def handleRenamePlan (root entryPath newName : String) :
    Except String (String × String) :=
  if entryPath = "" ∨ newName = "" then Except.error invalidBodyMsg
  else
    match getSafePath root entryPath with
    | Except.error msg => Except.error msg
    | Except.ok sourcePath =>
      let parentClientDir := posixDirname entryPath
      let newClientPath := pathJoinAbs parentClientDir newName
      match getSafePath root newClientPath with
      | Except.error msg => Except.error msg
      | Except.ok destPath => Except.ok (sourcePath, destPath)

/-- A flat model of the real filesystem's regular files: absolute path to
content. -/
def FsFiles : Type := List (String × String)

/-- Lookup of a file by absolute path. -/
def lookupFile : FsFiles → String → Option String
  | [], _ => none
  | (k, v) :: rest, p => if k == p then some v else lookupFile rest p

/-- Removes a file binding. -/
def removeFile (fs : FsFiles) (p : String) : FsFiles :=
  fs.filter (fun kv => !(kv.1 == p))

/-- Adds or replaces a file binding. -/
def setFile : FsFiles → String → String → FsFiles
  | [], p, c => [(p, c)]
  | (k, v) :: rest, p, c =>
    if k == p then (p, c) :: rest else (k, v) :: setFile rest p c

/-- Models Node `fs.rename` (POSIX `rename(2)`) restricted to regular
files: renaming a path onto itself succeeds and performs no action;
renaming onto an existing file silently replaces it; a missing source is
ENOENT. -/
def fsRenameFile (fs : FsFiles) (src dest : String) : Except String FsFiles :=
  match lookupFile fs src with
  | none => Except.error "ENOENT"
  | some c =>
    if src = dest then Except.ok fs
    else Except.ok (setFile (removeFile fs src) dest c)

/-- The full rename request: plan the paths, then perform the rename. -/
def handleRenameExec (root : String) (fs : FsFiles) (entryPath newName : String) :
    Except String FsFiles :=
  match handleRenamePlan root entryPath newName with
  | Except.error msg => Except.error msg
  | Except.ok (src, dest) => fsRenameFile fs src dest

/-- **C6, counterexample.**  Renaming `/docs/a.txt` to its current name
`a.txt` does not fail: the handler computes identical source and
destination paths and `fs.rename` succeeds as a no-op, so the request
returns 204 — contradicting the claim that such a rename fails
(INVALID_INPUT/CONFLICT).  Renaming to an existing sibling's name also
does not fail with CONFLICT: the sibling is silently replaced. -/
theorem rename_no_failure_counterexample :
    handleRenameExec "/app/files" [("/app/files/docs/a.txt", "x")] "/docs/a.txt" "a.txt"
      = Except.ok [("/app/files/docs/a.txt", "x")]
    ∧ handleRenameExec "/app/files"
        [("/app/files/docs/a.txt", "x"), ("/app/files/docs/b.txt", "y")]
        "/docs/a.txt" "b.txt"
      = Except.ok [("/app/files/docs/b.txt", "x")] := by
  exact ⟨by rfl, by rfl⟩

/-- **C6, amended.**  `handleRename` fails with INVALID_INPUT (400) iff
`entryPath` or `newName` is empty; it performs no conflict or same-name
check, so renaming a file onto its current name succeeds as a no-op, and
renaming it onto the name of an existing sibling file succeeds and
silently replaces that sibling — CONFLICT is never raised. -/
theorem handleRename_no_conflict_check (root ep nn : String) :
    (handleRenamePlan root ep nn = Except.error invalidBodyMsg ↔ (ep = "" ∨ nn = ""))
    ∧ (∀ (fs : FsFiles) (p c : String),
        lookupFile fs p = some c → fsRenameFile fs p p = Except.ok fs)
    ∧ (∀ (fs : FsFiles) (s d c : String), s ≠ d →
        lookupFile fs s = some c →
        fsRenameFile fs s d = Except.ok (setFile (removeFile fs s) d c)) := by
  refine ⟨?_, ?_, ?_⟩
  · constructor
    · intro h
      by_contra hc
      push_neg at hc
      rw [handleRenamePlan, if_neg (by tauto)] at h
      cases h1 : getSafePath root ep with
      | error msg =>
        rw [h1] at h
        have : msg = invalidBodyMsg := by
          simpa using h
        rw [getSafePath] at h1
        by_cases h2 : strStartsWith (pathJoinAbs root ep) root = true
        · rw [if_pos h2] at h1; simp at h1
        · rw [if_neg (by simpa using h2)] at h1
          have : accessDeniedMsg = invalidBodyMsg := by
            rw [← this]
            simpa using h1
          simp [accessDeniedMsg, invalidBodyMsg] at this
      | ok src =>
        rw [h1] at h
        cases h2 : getSafePath root (pathJoinAbs (posixDirname ep) nn) with
        | error msg =>
          simp only [h2] at h
          have hmsg : msg = invalidBodyMsg := by simpa using h
          rw [getSafePath] at h2
          by_cases h3 : strStartsWith (pathJoinAbs root (pathJoinAbs (posixDirname ep) nn)) root = true
          · rw [if_pos h3] at h2; simp at h2
          · rw [if_neg (by simpa using h3)] at h2
            have : accessDeniedMsg = invalidBodyMsg := by
              rw [← hmsg]
              simpa using h2
            simp [accessDeniedMsg, invalidBodyMsg] at this
        | ok dst => simp only [h2] at h; simp at h
    · intro h
      rw [handleRenamePlan, if_pos h]
  · intro fs p c h
    simp only [fsRenameFile, h, if_true]
  · intro fs s d c hne h
    simp only [fsRenameFile, h]
    rw [if_neg hne]

/-- **C6, amended — witness.**  Instantiates the amended rename theorem:
empty names are the only 400s, and a rename onto an occupied sibling path
replaces that sibling. -/
theorem handleRename_no_conflict_check_witness :
    (handleRenamePlan "/app/files" "" "a.txt" = Except.error invalidBodyMsg)
    ∧ fsRenameFile [("/app/files/docs/a.txt", "x")]
        "/app/files/docs/a.txt" "/app/files/docs/a.txt"
      = Except.ok [("/app/files/docs/a.txt", "x")]
    ∧ fsRenameFile [("/app/files/docs/a.txt", "x"), ("/app/files/docs/b.txt", "y")]
        "/app/files/docs/a.txt" "/app/files/docs/b.txt"
      = Except.ok (setFile
          (removeFile [("/app/files/docs/a.txt", "x"), ("/app/files/docs/b.txt", "y")]
            "/app/files/docs/a.txt")
          "/app/files/docs/b.txt" "x") :=
  ⟨(handleRename_no_conflict_check "/app/files" "" "a.txt").1.mpr (Or.inl rfl),
   (handleRename_no_conflict_check "/app/files" "" "a.txt").2.1
     [("/app/files/docs/a.txt", "x")] "/app/files/docs/a.txt" "x" (by rfl),
   (handleRename_no_conflict_check "/app/files" "" "a.txt").2.2
     [("/app/files/docs/a.txt", "x"), ("/app/files/docs/b.txt", "y")]
     "/app/files/docs/a.txt" "/app/files/docs/b.txt" "x" (by decide) (by rfl)⟩

/-- The initial `mockFileSystem` shared by `src/services/fileService.ts`
and `src/unnamed/part_001` (lines 4–28).  The `Date` literals are opaque to
every operation, so they are embedded as distinct small naturals. -/
def initialMockStore : Store :=
  [ ("/",
     [⟨"Documents", FileType.FOLDER, 0, 1, "/Documents"⟩,
      ⟨"Photos", FileType.FOLDER, 0, 2, "/Photos"⟩,
      ⟨"Project Proposal.docx", FileType.FILE, 256000, 3, "/Project Proposal.docx"⟩,
      ⟨"logo.png", FileType.FILE, 125000, 4, "/logo.png"⟩]),
    ("/Documents",
     [⟨"Work", FileType.FOLDER, 0, 5, "/Documents/Work"⟩,
      ⟨"Personal", FileType.FOLDER, 0, 6, "/Documents/Personal"⟩,
      ⟨"Meeting Notes.txt", FileType.FILE, 15360, 7, "/Documents/Meeting Notes.txt"⟩]),
    ("/Documents/Work",
     [⟨"Q4_Report.pdf", FileType.FILE, 1200000, 8, "/Documents/Work/Q4_Report.pdf"⟩]),
    ("/Documents/Personal", []),
    ("/Photos",
     [⟨"Vacation", FileType.FOLDER, 0, 9, "/Photos/Vacation"⟩,
      ⟨"family.jpg", FileType.FILE, 4500000, 10, "/Photos/family.jpg"⟩]),
    ("/Photos/Vacation",
     [⟨"beach.jpg", FileType.FILE, 5200000, 11, "/Photos/Vacation/beach.jpg"⟩,
      ⟨"mountains.jpg", FileType.FILE, 6100000, 12, "/Photos/Vacation/mountains.jpg"⟩]) ]

/-- `uploadFile` from `src/services/fileService.ts` (lines 46–61): builds
the new entry and pushes it onto the parent's listing unconditionally — no
duplicate check.  The uploaded browser `File` contributes its name and
size. -/
def uploadFile (now : Nat) (path fileName : String) (fileSize : Nat) (s : Store) :
    Store × FileEntry :=
  let newEntry : FileEntry :=
    { name := fileName, type := FileType.FILE, size := fileSize,
      lastModified := now,
      path := (if path = "/" then "" else path) ++ "/" ++ fileName }
  let cur := (storeGet s path).getD []
  (storeSet s path (cur ++ [newEntry]), newEntry)

/-- `uploadFile` from `src/unnamed/part_001` (lines 59–80): same entry
construction, but with the "Check for duplicates" step — when an entry of
the same name exists at the parent, it is overwritten in place instead of
a second entry being pushed. -/
def uploadFileChecked (now : Nat) (path fileName : String) (fileSize : Nat)
    (s : Store) : Store × FileEntry :=
  let newEntry : FileEntry :=
    { name := fileName, type := FileType.FILE, size := fileSize,
      lastModified := now,
      path := (if path = "/" then "" else path) ++ "/" ++ fileName }
  let cur := (storeGet s path).getD []
  match cur.findIdx? (fun f => f.name == fileName) with
  | some i => (storeSet s path (cur.set i newEntry), newEntry)
  | none => (storeSet s path (cur ++ [newEntry]), newEntry)

/-- **C7 (code bug), evaluation.**  The initial store holds exactly one
entry with path `/logo.png`; after `uploadFile` (the push-only variant of
`src/services/fileService.ts`) uploads a file named `logo.png` to `/`, the
root listing holds two entries with path `/logo.png` — the claimed
uniqueness invariant is broken by a single upload.  The sibling variant in
`src/unnamed/part_001`, whose duplicate check overwrites instead, keeps
the count at one. -/
theorem upload_duplicate_path_eval :
    ((storeGet initialMockStore "/").getD []).countP
        (fun e => e.path == "/logo.png") = 1
    ∧ ((storeGet (uploadFile 13 "/" "logo.png" 99 initialMockStore).1 "/").getD
        []).countP (fun e => e.path == "/logo.png") = 2
    ∧ ((storeGet (uploadFileChecked 13 "/" "logo.png" 99 initialMockStore).1 "/").getD
        []).countP (fun e => e.path == "/logo.png") = 1 := by
  exact ⟨by decide, by decide, by decide⟩

/-- Upload lifecycle states, from `src/contexts/UploadProgressContext.tsx`
(`'uploading' | 'done' | 'error'`). -/
inductive UploadStatus where
  | uploading
  | done
  | error
deriving DecidableEq, Repr

/-- The `UploadingFile` record of `src/contexts/UploadProgressContext.tsx`
(lines 5–11).  `progress` is an `Int` because `updateUploadProgress`
stores whatever number it receives, without a range check. -/
structure UploadingFile where
  id : String
  name : String
  progress : Int
  status : UploadStatus
  error : Option String
deriving DecidableEq, Repr

/-- `updateUploadProgress` from `src/contexts/UploadProgressContext.tsx`
(lines 65–69): `prev.map(u => u.id === id ? { ...u, progress } : u)` —
no status test, no range test. -/
def updateUploadProgress (id : String) (progress : Int)
    (uploads : List UploadingFile) : List UploadingFile :=
  uploads.map (fun u => if u.id == id then { u with progress := progress } else u)

/-- `setUploadStatus` from `src/contexts/UploadProgressContext.tsx`
(lines 71–83), restricted to its record update: the matching record gets
the new status and error, with progress kept on ERROR and forced to 100
otherwise. -/
def setUploadStatus (id : String) (status : UploadStatus) (err : Option String)
    (uploads : List UploadingFile) : List UploadingFile :=
  uploads.map (fun u =>
    if u.id == id then
      { u with status := status, error := err,
               progress := if status == UploadStatus.error then u.progress else 100 }
    else u)

/-- **C8, counterexample.**  The claim states that a progress report for a
record that has already reached a terminal status, or with an out-of-range
percentage, is ignored.  `updateUploadProgress` has neither guard: it
rewrites the progress of a DONE record, and stores the out-of-range value
150 on an UPLOADING record. -/
theorem updateUploadProgress_counterexample :
    updateUploadProgress "u1" 42
        [⟨"u1", "f1", 100, UploadStatus.done, none⟩]
      = [⟨"u1", "f1", 42, UploadStatus.done, none⟩]
    ∧ updateUploadProgress "u2" 150
        [⟨"u2", "f2", 10, UploadStatus.uploading, none⟩]
      = [⟨"u2", "f2", 150, UploadStatus.uploading, none⟩] := by
  exact ⟨by decide, by decide⟩

/-- **C8, amended.**  `updateUploadProgress(id, percent)` sets the
progress of every record whose id matches, regardless of the record's
status and without range-checking `percent` (only the progress field
changes); a call with an id matching no record changes nothing, and no
error is raised in any case. -/
theorem updateUploadProgress_spec (id : String) (p : Int)
    (uploads : List UploadingFile) :
    ((∀ u ∈ uploads, u.id ≠ id) → updateUploadProgress id p uploads = uploads)
    ∧ (updateUploadProgress id p uploads).length = uploads.length
    ∧ (∀ u ∈ uploads, u.id = id →
        ({ u with progress := p } : UploadingFile) ∈ updateUploadProgress id p uploads)
    ∧ (∀ u ∈ uploads, u.id ≠ id → u ∈ updateUploadProgress id p uploads) := by
  refine ⟨?_, ?_, ?_, ?_⟩
  · intro h
    rw [updateUploadProgress]
    conv_rhs => rw [← List.map_id uploads]
    apply List.map_congr_left
    intro u hu
    rw [if_neg (by simpa using h u hu)]
    rfl
  · simp [updateUploadProgress]
  · intro u hu hid
    have hmem := List.mem_map_of_mem
      (fun u => if u.id == id then { u with progress := p } else u) hu
    rw [updateUploadProgress]
    simpa [hid] using hmem
  · intro u hu hid
    have hmem := List.mem_map_of_mem
      (fun u => if u.id == id then { u with progress := p } else u) hu
    rw [updateUploadProgress]
    simpa [hid] using hmem

/-- **C8, amended — witness.**  Instantiates the amended progress theorem
on a two-record list: the unmatched record is preserved and the matched
one gets the new progress value. -/
theorem updateUploadProgress_spec_witness :
    (updateUploadProgress "uX" 55
        [⟨"uY", "g", 5, UploadStatus.uploading, none⟩]
      = [⟨"uY", "g", 5, UploadStatus.uploading, none⟩])
    ∧ (⟨"uZ", "h", 55, UploadStatus.done, none⟩ : UploadingFile) ∈
        updateUploadProgress "uZ" 55 [⟨"uZ", "h", 7, UploadStatus.done, none⟩] :=
  ⟨(updateUploadProgress_spec "uX" 55 [⟨"uY", "g", 5, UploadStatus.uploading, none⟩]).1
      (by decide),
   (updateUploadProgress_spec "uZ" 55 [⟨"uZ", "h", 7, UploadStatus.done, none⟩]).2.2.1
      ⟨"uZ", "h", 7, UploadStatus.done, none⟩ (by decide) rfl⟩

/-- The abort-controller registry of the provider
(`abortControllersRef.current : Map<string, () => void>`): handles are
opaque tokens, embedded as naturals. -/
def ControllerMap : Type := List (String × Nat)

/-- `Map.get`. -/
def mapGet : ControllerMap → String → Option Nat
  | [], _ => none
  | (k, v) :: rest, id => if k == id then some v else mapGet rest id

/-- `Map.delete`. -/
def mapDelete (m : ControllerMap) (id : String) : ControllerMap :=
  m.filter (fun kv => !(kv.1 == id))

/-- The provider's state relevant to cancellation: the `uploads` record
list and the abort-controller registry. -/
structure CoordState where
  uploads : List UploadingFile
  controllers : ControllerMap

/-- `cancelUpload` from `src/contexts/UploadProgressContext.tsx` (lines
57–63): look up the controller for `id`; when present, invoke it and
delete it from the registry.  The returned `Option Nat` is the handle that
was invoked (if any); the `uploads` list is never touched. -/
def cancelUpload (st : CoordState) (id : String) : CoordState × Option Nat :=
  match mapGet st.controllers id with
  | some handle => ({ st with controllers := mapDelete st.controllers id }, some handle)
  | none => (st, none)

theorem mapGet_mapDelete_self (m : ControllerMap) (id : String) :
    mapGet (mapDelete m id) id = none := by
  induction m with
  | nil => rfl
  | cons kv rest ih =>
    obtain ⟨k, v⟩ := kv
    by_cases h : k = id
    · simp only [mapDelete, List.filter]
      rw [show ((!(k == id)) = false) by simp [h]]
      exact ih
    · simp only [mapDelete, List.filter]
      rw [show ((!(k == id)) = true) by simp [h]]
      simp only [mapGet]
      rw [if_neg (by simpa using h)]
      exact ih

theorem mapGet_mapDelete_ne (m : ControllerMap) (id k' : String) (h : k' ≠ id) :
    mapGet (mapDelete m id) k' = mapGet m k' := by
  induction m with
  | nil => rfl
  | cons kv rest ih =>
    obtain ⟨k, v⟩ := kv
    by_cases h1 : k = id
    · simp only [mapDelete, List.filter]
      rw [show ((!(k == id)) = false) by simp [h1]]
      rw [show (mapGet ((k, v) :: rest) k' = mapGet rest k') by
        simp only [mapGet]; rw [if_neg (by simp [h1]; exact Ne.symm (h1 ▸ h))]]
      exact ih
    · simp only [mapDelete, List.filter]
      rw [show ((!(k == id)) = true) by simp [h1]]
      simp only [mapGet]
      by_cases h2 : k = k'
      · rw [if_pos (by simpa using h2), if_pos (by simpa using h2)]
      · rw [if_neg (by simpa using h2), if_neg (by simpa using h2)]
        exact ih

/-- **C10.**  `cancelUpload` never touches the upload records: the
`uploads` list is unchanged, so no record's status, progress or error
field can change through `cancel` (ERROR can only arrive via the
transport's terminal callback into `setUploadStatus`).  Its only effects
are invoking exactly the registered handle for `id` (when one exists) and
removing that handle — other registrations are untouched, and a second
`cancel` for the same id invokes nothing. -/
theorem cancelUpload_frame (st : CoordState) (id : String) :
    ((cancelUpload st id).1.uploads = st.uploads)
    ∧ ((cancelUpload st id).2 = mapGet st.controllers id)
    ∧ (mapGet (cancelUpload st id).1.controllers id = none)
    ∧ (∀ k, k ≠ id → mapGet (cancelUpload st id).1.controllers k
        = mapGet st.controllers k)
    ∧ ((cancelUpload (cancelUpload st id).1 id).2 = none) := by
  cases h : mapGet st.controllers id with
  | none =>
    refine ⟨?_, ?_, ?_, ?_, ?_⟩ <;> simp [cancelUpload, h]
  | some handle =>
    refine ⟨?_, ?_, ?_, ?_, ?_⟩
    · simp [cancelUpload, h]
    · simp [cancelUpload, h]
    · simp [cancelUpload, h, mapGet_mapDelete_self]
    · intro k hk
      simp [cancelUpload, h, mapGet_mapDelete_ne _ _ _ hk]
    · simp [cancelUpload, h, mapGet_mapDelete_self]

/-- **C10 — witness.**  Instantiates the cancellation frame theorem on a
state with one UPLOADING record and one registered handle. -/
theorem cancelUpload_frame_witness :
    ((cancelUpload ⟨[⟨"u9", "f", 40, UploadStatus.uploading, none⟩], [("u9", 77)]⟩
        "u9").1.uploads = [⟨"u9", "f", 40, UploadStatus.uploading, none⟩])
    ∧ ((cancelUpload ⟨[⟨"u9", "f", 40, UploadStatus.uploading, none⟩], [("u9", 77)]⟩
        "u9").2 = some 77)
    ∧ (∀ k, k ≠ "u9" →
        mapGet (cancelUpload ⟨[⟨"u9", "f", 40, UploadStatus.uploading, none⟩],
          [("u9", 77)]⟩ "u9").1.controllers k = mapGet [("u9", 77)] k) :=
  ⟨(cancelUpload_frame ⟨[⟨"u9", "f", 40, UploadStatus.uploading, none⟩],
      [("u9", 77)]⟩ "u9").1,
   ((cancelUpload_frame ⟨[⟨"u9", "f", 40, UploadStatus.uploading, none⟩],
      [("u9", 77)]⟩ "u9").2.1).trans (by decide),
   (cancelUpload_frame ⟨[⟨"u9", "f", 40, UploadStatus.uploading, none⟩],
      [("u9", 77)]⟩ "u9").2.2.2.1⟩

/-- Models JavaScript's `String.prototype.toLowerCase` for the ASCII names
the categorize handler compares. -/
def strToLower (s : String) : String :=
  String.mk (s.data.map Char.toLower)

/-- The fixed extension-to-category table of `handleCategorize`
(`src/vite.plugin.fs.ts` lines 253–259). -/
def CATEGORIES : List (String × List String) :=
  [ ("Pictures", ["jpg", "jpeg", "png", "gif", "svg", "webp", "bmp"]),
    ("Videos", ["mp4", "mov", "avi", "mkv", "webm"]),
    ("Audio", ["mp3", "wav", "ogg", "flac"]),
    ("Documents", ["pdf", "doc", "docx", "txt", "xls", "xlsx", "ppt", "pptx"]),
    ("Archives", ["zip", "rar", "7z", "tar", "gz"]) ]

/-- The extension computed per path by `handleCategorize` (line 262):
`path.basename(p).split('.').pop()?.toLowerCase()` — the lowercased last
segment of the base name split at dots.  For a base name with no dot this
is the whole (lowercased) base name, not the empty string. -/
def extOf (p : String) : String :=
  strToLower (String.mk ((splitOnChar '.' (basename p).data).getLastD []))

/-- The category chosen for an extension (line 265):
`Object.keys(CATEGORIES).find(key => CATEGORIES[key].includes(ext)) || 'Other'`. -/
def categoryOf (ext : String) : String :=
  match CATEGORIES.find? (fun kv => kv.2.contains ext) with
  | some kv => kv.1
  | none => "Other"

/-- One iteration of the `for (const p of paths)` loop of
`handleCategorize` (`src/vite.plugin.fs.ts` lines 261–273): `none` is the
`if (!ext) continue` skip; otherwise the handler creates the category
folder `path.join(currentPath, category)` and renames the entry to
`path.join(destDir, basename(p))` (both wrapped in `getSafePath`, which
only prepends the sandbox root for these in-sandbox paths).  The returned
triple is (category, destination folder, destination path). -/
def categorizeOne (currentPath p : String) : Option (String × String × String) :=
  let ext := extOf p
  if ext = "" then none
  else
    let category := categoryOf ext
    let destDir := pathJoinAbs currentPath category
    some (category, destDir, pathJoinAbs destDir (basename p))

theorem splitOnChar_of_not_mem (c : Char) (l : List Char) (h : c ∉ l) :
    splitOnChar c l = [l] := by
  induction l with
  | nil => rfl
  | cons x xs ih =>
    have hx : ¬(x = c) := fun hc => h (hc ▸ List.mem_cons_self x xs)
    have hxs : c ∉ xs := fun hc => h (List.mem_cons_of_mem x hc)
    rw [splitOnChar]
    simp only [ih hxs]
    rw [if_neg hx]

/-- **C9, counterexample.**  The claim states that a path whose base name
has no extension is skipped.  `/README` has no dot in its base name, yet
`categorizeOne` does not skip it: `split('.').pop()` returns the whole
name `README`, which is truthy, matches no table entry, and the file is
moved to `Other`. -/
theorem categorize_skip_counterexample :
    ('.' ∉ ("README" : String).data)
    ∧ categorizeOne "/" "/README" = some ("Other", "/Other", "/Other/README") := by
  exact ⟨by decide, by decide⟩

/-- **C9, amended.**  `handleCategorize` skips an entry exactly when the
computed extension segment — the lowercased last dot-separated segment of
the base name, which for a dotless base name is the whole name — is
empty (i.e. only when the base name is empty or ends in a dot).  Every
other entry is moved into the subfolder named by the category table, with
unmatched extensions going to `Other`; in particular a non-empty dotless
base name is moved (treating the whole name as its extension), not
skipped. -/
theorem categorizeOne_spec (cur p : String) :
    (categorizeOne cur p = none ↔ extOf p = "")
    ∧ (extOf p ≠ "" → categorizeOne cur p =
        some (categoryOf (extOf p), pathJoinAbs cur (categoryOf (extOf p)),
              pathJoinAbs (pathJoinAbs cur (categoryOf (extOf p))) (basename p)))
    ∧ (('.' ∉ (basename p).data ∧ basename p ≠ "") →
        (categorizeOne cur p).isSome = true) := by
  refine ⟨?_, ?_, ?_⟩
  · constructor
    · intro h
      by_contra hc
      rw [categorizeOne, if_neg hc] at h
      simp at h
    · intro h
      rw [categorizeOne, if_pos h]
  · intro h
    rw [categorizeOne, if_neg h]
  · rintro ⟨hnd, hne⟩
    have hsplit : splitOnChar '.' (basename p).data = [(basename p).data] :=
      splitOnChar_of_not_mem '.' _ hnd
    have hext : extOf p = String.mk ((basename p).data.map Char.toLower) := by
      rw [extOf, hsplit]
      rfl
    have hdata : (basename p).data ≠ [] := by
      intro hd
      exact hne (String.ext (by rw [hd]))
    have hnePlain : extOf p ≠ "" := by
      rw [hext]
      intro hcontra
      have hmap : (basename p).data.map Char.toLower = [] :=
        congrArg String.data hcontra
      rw [List.map_eq_nil_iff] at hmap
      exact hdata hmap
    rw [categorizeOne, if_neg hnePlain]
    rfl

/-- **C9, amended — witness.**  Instantiates the amended categorize
theorem: `photo.JPG` is moved per the table, and the dotless `Makefile`
is moved (not skipped). -/
theorem categorizeOne_spec_witness :
    (categorizeOne "/" "/photo.JPG"
      = some (categoryOf (extOf "/photo.JPG"),
              pathJoinAbs "/" (categoryOf (extOf "/photo.JPG")),
              pathJoinAbs (pathJoinAbs "/" (categoryOf (extOf "/photo.JPG")))
                (basename "/photo.JPG")))
    ∧ (categorizeOne "/" "/Makefile").isSome = true :=
  ⟨(categorizeOne_spec "/" "/photo.JPG").2.1 (by decide),
   (categorizeOne_spec "/" "/Makefile").2.2 ⟨by decide, by decide⟩⟩
